import Mathlib

/-!
Shallow embedding of the LIGMA markdown blog engine (src/main.go).

Strings are modelled as Lean `String`s; the Go code indexes lines byte by
byte and the content in question is ASCII, so a byte of the Go string
corresponds to one element of `String.data`. Go library helpers used by the
code (strings.HasPrefix, strings.HasSuffix, strings.TrimPrefix,
strings.TrimSuffix, filepath.Join on clean relative paths) are embedded
below on `String.data` so that every definition evaluates inside the
kernel.
-/

/-- Go strings.HasPrefix: pre is a prefix of s. -/
def hasPre (s pre : String) : Bool := pre.data.isPrefixOf s.data

/-- Go strings.HasSuffix: suf is a suffix of s. -/
def hasSuf (s suf : String) : Bool := suf.data.isSuffixOf s.data

/-- Go s[n:] on an ASCII string: drop the first n bytes. -/
def strDrop (s : String) (n : Nat) : String := String.mk (s.data.drop n)

/-- Go s[:len(s)-n] on an ASCII string: drop the last n bytes. -/
def strDropLast (s : String) (n : Nat) : String :=
  String.mk (s.data.take (s.data.length - n))

/-- Go strings.TrimPrefix. -/
def trimPre (s pre : String) : String := if hasPre s pre then strDrop s pre.length else s

/-- Go strings.TrimSuffix. -/
def trimSuf (s suf : String) : String := if hasSuf s suf then strDropLast s suf.length else s

/-- Go filepath.Join(dir, name) for the clean relative paths the walk
builds (never empty, no dot segments, no duplicate separators), where it
is plain concatenation with one separator. -/
def joinPath (dir name : String) : String := dir ++ "/" ++ name

/-! ## The inline span transducer: parseInlineMarkdown (src/main.go:326-372) -/

/-- The mutable locals of parseInlineMarkdown: the four mode flags, the
linkText accumulator and the output buffer (bytes.Buffer), as lists of
the characters written so far. -/
structure PState where
  inStrong : Bool
  inEm : Bool
  inLinkText : Bool
  inLinkURL : Bool
  linkText : List Char
  buf : List Char
deriving DecidableEq

/-- One iteration of the switch in parseInlineMarkdown for every case
except the double-asterisk one (which consumes two bytes and lives in
`pimGo`): the cases are tried in the switch's order — single `*` outside
strong mode, `[`, `]`, `(` while link text is open, `)` while URL capture
is on, and the default case that appends the byte to linkText or to the
buffer. -/
def pimStep (c : Char) (st : PState) : PState :=
  if c = '*' && !st.inStrong then
    if st.inEm then { st with buf := st.buf ++ "</em>".toList, inEm := false }
    else { st with buf := st.buf ++ "<em>".toList, inEm := true }
  else if c = '[' then { st with inLinkText := true }
  else if c = ']' then { st with inLinkText := false }
  else if c = '(' && st.inLinkText then { st with inLinkURL := true }
  else if c = ')' && st.inLinkURL then
    { st with
        inLinkURL := false
        buf := st.buf ++ "<a href=\"".toList ++ st.linkText ++ "\">".toList
                 ++ st.linkText ++ "</a>".toList
        linkText := [] }
  else if st.inLinkURL then { st with linkText := st.linkText ++ [c] }
  else { st with buf := st.buf ++ [c] }

/-- The first case of the switch: a double asterisk opens or closes a
strong element. -/
def strongToggle (st : PState) : PState :=
  if st.inStrong then { st with buf := st.buf ++ "</strong>".toList, inStrong := false }
  else { st with buf := st.buf ++ "<strong>".toList, inStrong := true }

/-- The scan loop of parseInlineMarkdown: the double-asterisk case fires
only when a next byte exists and is `*` (Go checks i+1 < len(line)) and
then consumes both bytes; every other byte is handled by `pimStep`. -/
def pimGo : List Char → PState → List Char
  | [], st => st.buf
  | [c], st => (pimStep c st).buf
  | c₁ :: c₂ :: rest, st =>
    if c₁ = '*' && c₂ = '*' then pimGo rest (strongToggle st)
    else pimGo (c₂ :: rest) (pimStep c₁ st)

/-- The initial state of parseInlineMarkdown: all four flags false, empty
linkText, empty buffer. -/
def initPState : PState := ⟨false, false, false, false, [], []⟩

/-- parseInlineMarkdown (src/main.go:326-372): run the scan loop on the
line's bytes from the initial state and return the buffer. -/
def parseInlineMarkdown (line : String) : String :=
  String.mk (pimGo line.toList initPState)

/-- The scan loop of parseInlineMarkdown written exactly as the Go for
loop runs it: position i, the loop guard i < len(line), and every byte
access performed through a checked lookup (`l[i]?`) that yields `none`
out of bounds — including the lookahead at i+1, which Go guards with
i+1 < len(line). `none` is the (unreachable) reject state the safety
claim is about. -/
def pimIdxGo (line : List Char) (st : PState) (i : Nat) : Option (List Char) :=
  if _h : i < line.length then
    match line.get? i with
    | none => none
    | some c =>
      if c = '*' ∧ i + 1 < line.length then
        match line.get? (i + 1) with
        | none => none
        | some c₂ =>
          if c₂ = '*' then pimIdxGo line (strongToggle st) (i + 2)
          else pimIdxGo line (pimStep c st) (i + 1)
      else pimIdxGo line (pimStep c st) (i + 1)
  else some st.buf
termination_by line.length - i

/-! ## The document renderer: loadBlogContent (src/main.go:296-324) -/

/-- The scanner loop of loadBlogContent: each line is classified by the
if/else chain of the Go code (in its order) and the produced markup is
written to the strings.Builder `acc`. -/
def loadBlogLoop : List String → String → String
  | [], acc => acc
  | line :: rest, acc =>
    loadBlogLoop rest (acc ++
      (if hasPre line "### " then "<h3>" ++ strDrop line 4 ++ "</h3>"
       else if hasPre line "## " then "<h2>" ++ strDrop line 3 ++ "</h2>"
       else if hasPre line "# " then "<h1>" ++ strDrop line 2 ++ "</h1>"
       else if hasPre line "- " then "<ul><li>" ++ strDrop line 2 ++ "</li></ul>"
       else parseInlineMarkdown line ++ "<br>"))

/-- The error loadBlogContent propagates when os.Open fails for the
slug's file (a NotFound-class fs.PathError). -/
inductive GoError where
  | notFound
deriving DecidableEq

/-- The filesystem as loadBlogContent sees it: a slug maps to the lines
of content/slug.md (what bufio.Scanner yields), or to none when the file
cannot be opened. -/
abbrev FileSys := String → Option (List String)

/-- loadBlogContent (src/main.go:296-324): open content/slug.md (error
when that fails) and run the scanner loop over its lines with an empty
builder. -/
def loadBlogContent (fs : FileSys) (slug : String) : Except GoError String :=
  match fs slug with
  | none => Except.error GoError.notFound
  | some lines => Except.ok (loadBlogLoop lines "")

/-! ## The cache and the slug list: LIGMA (src/main.go:236-294) -/

/-- The LIGMA state: the rendered-markup cache (a Go map, modelled as an
association list looked up by key with the newest binding first) and the
slug list. -/
structure LIGMA where
  Content : List (String × String)
  Slugs : List String
deriving DecidableEq

/-- NewLIGMA (src/main.go:241-246): empty cache, empty slug list. -/
def NewLIGMA : LIGMA := { Content := [], Slugs := [] }

/-- GetBlogContent (src/main.go:249-262): serve from the cache when the
slug is present; otherwise render via loadBlogContent, and on success
store the result under the slug before returning it; on failure return
the error and store nothing. -/
def GetBlogContent (fs : FileSys) (l : LIGMA) (slug : String) :
    Except GoError String × LIGMA :=
  match l.Content.lookup slug with
  | some content => (Except.ok content, l)
  | none =>
    match loadBlogContent fs slug with
    | Except.error e => (Except.error e, l)
    | Except.ok parsedContent =>
      (Except.ok parsedContent, { l with Content := (slug, parsedContent) :: l.Content })

/- A directory tree as os.ReadDir presents it to the walk: an entry is a
file or a directory with its own (ordered) entries. The listing is its
own inductive so that the walk is structurally recursive. -/
mutual
inductive FSEntry where
  | file (name : String)
  | dir (name : String) (entries : FSList)
inductive FSList where
  | nil
  | cons (head : FSEntry) (tail : FSList)
end

/-- The slug a discovered file path yields (src/main.go:286-287):
strings.TrimPrefix(path, "content/") then strings.TrimSuffix(·, ".md"). -/
def slugOf (path : String) : String := trimSuf (trimPre path "content/") ".md"

/-- The loop of buildBlogListRecursive (src/main.go:269-294) over the
entries of dirPath, threading the receiver's Slugs field (`slugs`, which
a recursive call on a subdirectory appends to at once) and this
directory's own markdownSlugs accumulator (appended to Slugs only after
the loop, by `buildBlogListRecursive`). -/
def buildWalk : String → FSList → List String → List String → List String × List String
  | _, .nil, markdownSlugs, slugs => (markdownSlugs, slugs)
  | dirPath, .cons (.dir name entries) rest, markdownSlugs, slugs =>
    let sub := buildWalk (joinPath dirPath name) entries [] slugs
    buildWalk dirPath rest markdownSlugs (sub.2 ++ sub.1)
  | dirPath, .cons (.file name) rest, markdownSlugs, slugs =>
    if hasSuf name ".md" then
      buildWalk dirPath rest (markdownSlugs ++ [slugOf (joinPath dirPath name)]) slugs
    else
      buildWalk dirPath rest markdownSlugs slugs

/-- buildBlogListRecursive (src/main.go:269-294): walk dirPath's entries
and return the updated Slugs field — what was there before, extended by
this walk's discoveries (l.Slugs = append(l.Slugs, markdownSlugs...)). -/
def buildBlogListRecursive (dirPath : String) (entries : FSList)
    (slugs : List String) : List String :=
  let r := buildWalk dirPath entries [] slugs
  r.2 ++ r.1

/-- buildBlogList (src/main.go:265-267): walk the "content" root and
update the receiver's Slugs field. -/
def buildBlogList (entries : FSList) (l : LIGMA) : LIGMA :=
  { l with Slugs := buildBlogListRecursive "content" entries l.Slugs }

/-! ## Helper lemmas about the transducer -/

/-- A byte other than the four special characters, scanned while URL
capture is off, is copied to the buffer and changes nothing else. -/
theorem pimStep_plain (c : Char) (st : PState) (h1 : c ≠ '*') (h2 : c ≠ '[')
    (h3 : c ≠ ']') (h4 : c ≠ '(') (h5 : st.inLinkURL = false) :
    pimStep c st = { st with buf := st.buf ++ [c] } := by
  simp [pimStep, h1, h2, h3, h4, h5]

/-- Scanning a line with none of the four special characters from a state
with URL capture off appends the line to the buffer unchanged. -/
theorem pimGo_passthrough : ∀ (cs : List Char) (st : PState),
    (∀ c ∈ cs, c ≠ '*' ∧ c ≠ '[' ∧ c ≠ '(' ∧ c ≠ ']') → st.inLinkURL = false →
    pimGo cs st = st.buf ++ cs := by
  intro cs st
  induction cs, st using pimGo.induct with
  | case1 st => intro _ _; simp [pimGo]
  | case2 c st =>
    intro h hu
    obtain ⟨h1, h2, h4, h3⟩ := h c (by simp)
    simp [pimGo, pimStep_plain c st h1 h2 h3 h4 hu]
  | case3 c₁ c₂ rest st hdbl ih =>
    intro h hu
    obtain ⟨h1, _, _, _⟩ := h c₁ (by simp)
    simp [h1] at hdbl
  | case4 c₁ c₂ rest st hdbl ih =>
    intro h hu
    obtain ⟨h1, h2, h4, h3⟩ := h c₁ (by simp)
    have hstep := pimStep_plain c₁ st h1 h2 h3 h4 hu
    have hrec := ih (fun c hc => h c (by simp [hc])) (by rw [hstep]; exact hu)
    rw [hstep] at hrec
    simp [pimGo, h1, hstep, hrec]

/-! ## Claims about the inline span transducer -/

/-- Claim C1, counterexample: on the input "[x](http://a)" the transducer
does not output the anchor element the claim promises. -/
theorem claim_C1_counterexample :
    parseInlineMarkdown "[x](http://a)" ≠ "<a href=\"http://a\">http://a</a>" := by
  decide

/-- Claim C1 as amended: on "[x](http://a)" the `]` has already closed the
link-text region when the `(` is scanned, so URL-capture mode never
activates: the bracketed text is emitted (without its brackets) rather
than discarded, and the parenthesized URL is passed through literally,
giving "x(http://a)". In general a `(` scanned with the link-text region
closed and URL capture off is copied to the output unchanged. -/
theorem claim_C1_amended :
    parseInlineMarkdown "[x](http://a)" = "x(http://a)" ∧
    ∀ (cs : List Char) (st : PState), st.inLinkText = false → st.inLinkURL = false →
      pimGo ('(' :: cs) st = pimGo cs { st with buf := st.buf ++ ['('] } := by
  constructor
  · decide
  · intro cs st ht hu
    have hstep : pimStep '(' st = { st with buf := st.buf ++ ['('] } := by
      simp [pimStep, ht, hu]
    cases cs with
    | nil => simp [pimGo, hstep]
    | cons c rest => simp [pimGo, hstep]

/-- Claim C2, counterexample: the line "]" contains no `*`, `[` or `(`,
yet the transducer is not the identity on it (the `]` is consumed
silently). -/
theorem claim_C2_counterexample :
    (∀ c ∈ ("]" : String).toList, c ≠ '*' ∧ c ≠ '[' ∧ c ≠ '(') ∧
    parseInlineMarkdown "]" ≠ "]" := by
  decide

/-- Claim C2 as amended: the transducer is the identity exactly on lines
that contain none of `*`, `[`, `(` and also no `]` (a `]` is consumed
silently even with no matching `[`). -/
theorem claim_C2_amended (line : String)
    (h : ∀ c ∈ line.toList, c ≠ '*' ∧ c ≠ '[' ∧ c ≠ '(' ∧ c ≠ ']') :
    parseInlineMarkdown line = line := by
  unfold parseInlineMarkdown
  rw [pimGo_passthrough line.toList initPState h rfl]
  simp only [initPState, List.nil_append]
  rfl

/-- Claim C2 witness: the amended claim at the concrete line "hello world". -/
theorem claim_C2_witness : parseInlineMarkdown "hello world" = "hello world" :=
  claim_C2_amended "hello world" (by decide)

/-- Claim C10: a `]` is always consumed without emitting anything — it
only clears the link-text flag (this holds in every state, in particular
whenever URL-capture mode is inactive); on "a]b" the output is "ab". -/
theorem claim_C10 :
    (∀ (cs : List Char) (st : PState),
        pimGo (']' :: cs) st = pimGo cs { st with inLinkText := false }) ∧
    parseInlineMarkdown "a]b" = "ab" := by
  constructor
  · intro cs st
    have hstep : pimStep ']' st = { st with inLinkText := false } := rfl
    cases cs with
    | nil => simp [pimGo, hstep]
    | cons c rest => simp [pimGo, hstep]
  · decide

/-- With link-text and URL-capture off and the byte neither `[` nor `]`,
one step keeps both flags off and grows the buffer by at least one. -/
theorem pimStep_growth (c : Char) (st : PState) (h2 : c ≠ '[') (h3 : c ≠ ']')
    (ht : st.inLinkText = false) (hu : st.inLinkURL = false) :
    (pimStep c st).inLinkText = false ∧ (pimStep c st).inLinkURL = false ∧
    st.buf.length + 1 ≤ (pimStep c st).buf.length := by
  by_cases h1 : c = '*'
  · subst h1
    cases hs : st.inStrong
    · cases he : st.inEm <;> simp [pimStep, hs, he, ht, hu]
    · have hps : pimStep '*' st = { st with buf := st.buf ++ ['*'] } := by
        simp [pimStep, hs, hu]
      simp [hps, ht, hu]
  · by_cases h4 : c = '('
    · subst h4
      have hps : pimStep '(' st = { st with buf := st.buf ++ ['('] } := by
        simp [pimStep, ht, hu]
      simp [hps, ht, hu]
    · rw [pimStep_plain c st h1 h2 h3 h4 hu]
      simp [ht, hu]

/-- The double-asterisk step keeps both link flags and grows the buffer
by at least two. -/
theorem strongToggle_growth (st : PState) :
    (strongToggle st).inLinkText = st.inLinkText ∧
    (strongToggle st).inLinkURL = st.inLinkURL ∧
    st.buf.length + 2 ≤ (strongToggle st).buf.length := by
  cases hs : st.inStrong <;> simp [strongToggle, hs]

/-- Scanning a line with no `[` and no `]` from a state with both link
flags off grows the buffer by at least the line's length. -/
theorem pimGo_growth : ∀ (cs : List Char) (st : PState),
    (∀ c ∈ cs, c ≠ '[' ∧ c ≠ ']') → st.inLinkText = false → st.inLinkURL = false →
    st.buf.length + cs.length ≤ (pimGo cs st).length := by
  intro cs st
  induction cs, st using pimGo.induct with
  | case1 st => intro _ _ _; simp [pimGo]
  | case2 c st =>
    intro h ht hu
    obtain ⟨h2, h3⟩ := h c (by simp)
    have := pimStep_growth c st h2 h3 ht hu
    simp [pimGo]
    omega
  | case3 c₁ c₂ rest st hdbl ih =>
    intro h ht hu
    obtain ⟨hg1, hg2, hg3⟩ := strongToggle_growth st
    have hrec := ih (fun c hc => h c (by simp [hc])) (by rw [hg1]; exact ht)
      (by rw [hg2]; exact hu)
    simp only [pimGo, if_pos hdbl, List.length_cons]
    omega
  | case4 c₁ c₂ rest st hdbl ih =>
    intro h ht hu
    obtain ⟨h2, h3⟩ := h c₁ (by simp)
    obtain ⟨hg1, hg2, hg3⟩ := pimStep_growth c₁ st h2 h3 ht hu
    have hrec := ih (fun c hc => h c (by simp [hc])) hg1 hg2
    simp only [List.length_cons] at hrec
    simp only [pimGo, if_neg hdbl, List.length_cons]
    omega

/-- Claim C8, counterexample: the output for "[" is empty, shorter than
the input. -/
theorem claim_C8_counterexample :
    (parseInlineMarkdown "[").length < ("[" : String).length := by
  decide

/-- Claim C8 as amended: for every line containing no `[` and no `]` the
output is at least as long as the input (a `[` or `]` is consumed without
emitting anything, so lines containing them can shrink). -/
theorem claim_C8_amended (line : String)
    (h : ∀ c ∈ line.toList, c ≠ '[' ∧ c ≠ ']') :
    line.length ≤ (parseInlineMarkdown line).length := by
  have hg := pimGo_growth line.toList initPState h rfl rfl
  simpa [parseInlineMarkdown, initPState] using hg

/-- Claim C8 witness: the amended claim at the concrete line "*a**b**". -/
theorem claim_C8_witness : ("*a**b**" : String).length ≤ (parseInlineMarkdown "*a**b**").length :=
  claim_C8_amended "*a**b**" (by decide)


/-- Unless the head is a `*` directly followed by another `*`, the scan
loop handles the head with `pimStep` and goes on with the tail. -/
theorem pimGo_cons (c : Char) (t : List Char) (st : PState)
    (h : ¬(c = '*' ∧ t.head? = some '*')) :
    pimGo (c :: t) st = pimGo t (pimStep c st) := by
  cases t with
  | nil => simp [pimGo]
  | cons c₂ rest =>
    by_cases hc : c = '*'
    · by_cases hc2 : c₂ = '*'
      · exact absurd ⟨hc, by simp [hc2]⟩ h
      · simp [pimGo, hc2]
    · simp [pimGo, hc]

/-- The indexed checked loop never reaches `none` and computes exactly
what the structural scan computes on the remaining bytes. -/
theorem pimIdxGo_eq (l : List Char) : ∀ (st : PState) (i : Nat),
    pimIdxGo l st i = some (pimGo (List.drop i l) st) := by
  intro st i
  induction st, i using pimIdxGo.induct l with
  | case1 st i hi hnone =>
    rw [List.get?_eq_getElem?, List.getElem?_eq_getElem hi] at hnone
    exact Option.noConfusion hnone
  | case2 st i hi c hc hdbl hnone =>
    rw [List.get?_eq_getElem?, List.getElem?_eq_getElem hdbl.2] at hnone
    exact Option.noConfusion hnone
  | case3 st i hi c hc hdbl hc2 ih =>
    rw [List.get?_eq_getElem?, List.getElem?_eq_getElem hi] at hc
    rw [List.get?_eq_getElem?, List.getElem?_eq_getElem hdbl.2] at hc2
    injection hc with hc
    injection hc2 with hc2
    have hcond : l[i] = '*' ∧ i + 1 < l.length := ⟨hc.trans hdbl.1, hdbl.2⟩
    rw [pimIdxGo, dif_pos hi, List.get?_eq_getElem?, List.getElem?_eq_getElem hi]
    dsimp only
    rw [if_pos hcond]
    rw [List.get?_eq_getElem?, List.getElem?_eq_getElem hdbl.2]
    dsimp only
    rw [if_pos hc2, ih]
    rw [List.drop_eq_getElem_cons hi, List.drop_eq_getElem_cons hdbl.2]
    simp [pimGo, hc.trans hdbl.1, hc2]
  | case4 st i hi c hc hdbl c₂ hc2 hne ih =>
    rw [List.get?_eq_getElem?, List.getElem?_eq_getElem hi] at hc
    rw [List.get?_eq_getElem?, List.getElem?_eq_getElem hdbl.2] at hc2
    injection hc with hc
    injection hc2 with hc2
    have hcond : l[i] = '*' ∧ i + 1 < l.length := ⟨hc.trans hdbl.1, hdbl.2⟩
    have hne2 : ¬l[i + 1] = '*' := by rw [hc2]; exact hne
    rw [pimIdxGo, dif_pos hi, List.get?_eq_getElem?, List.getElem?_eq_getElem hi]
    dsimp only
    rw [if_pos hcond]
    rw [List.get?_eq_getElem?, List.getElem?_eq_getElem hdbl.2]
    dsimp only
    rw [if_neg hne2, hc, ih]
    rw [List.drop_eq_getElem_cons hi]
    rw [pimGo_cons, hc]
    rw [List.drop_eq_getElem_cons hdbl.2]
    intro hcontra
    exact hne (by
      have := hcontra.2
      simp only [List.head?_cons, Option.some.injEq] at this
      exact hc2 ▸ this)
  | case5 st i hi c hc hnd ih =>
    rw [List.get?_eq_getElem?, List.getElem?_eq_getElem hi] at hc
    injection hc with hc
    have hnd2 : ¬(l[i] = '*' ∧ i + 1 < l.length) := by rw [hc]; exact hnd
    rw [pimIdxGo, dif_pos hi, List.get?_eq_getElem?, List.getElem?_eq_getElem hi]
    dsimp only
    rw [if_neg hnd2, hc, ih]
    rw [List.drop_eq_getElem_cons hi]
    rw [pimGo_cons, hc]
    intro hcontra
    by_cases hlen : i + 1 < l.length
    · exact (hc ▸ hnd) ⟨hcontra.1, hlen⟩
    · rw [List.drop_eq_nil_iff.mpr (by omega)] at hcontra
      simp at hcontra
  | case6 st i hni =>
    rw [pimIdxGo, dif_neg hni]
    rw [List.drop_eq_nil_iff.mpr (by omega)]
    simp [pimGo]

/-- Claim C9: the transducer is total — run exactly as the Go loop runs
it (index i from 0, checked byte accesses, guarded lookahead at i+1),
the scan reaches the end of every line without any out-of-bounds access
or reject state, and returns the transducer's output. -/
theorem claim_C9 (line : String) :
    pimIdxGo line.toList initPState 0 = some (parseInlineMarkdown line).toList := by
  rw [pimIdxGo_eq line.toList initPState 0]
  rfl

/-! ## Claims about the document renderer -/

/-- Per-line classification as the spec states it, in priority order: a
"### " prefix yields an h3 element on the rest of the line, else "## "
yields h2, else "# " yields h1, else a "- " prefix yields its own
complete single-item unordered list, else the full line (a blank line
included) goes through the inline span transducer followed by a
line-break element. -/
def specClassifyLine (line : String) : String :=
  if hasPre line "### " then "<h3>" ++ strDrop line 4 ++ "</h3>"
  else if hasPre line "## " then "<h2>" ++ strDrop line 3 ++ "</h2>"
  else if hasPre line "# " then "<h1>" ++ strDrop line 2 ++ "</h1>"
  else if hasPre line "- " then "<ul><li>" ++ strDrop line 2 ++ "</li></ul>"
  else parseInlineMarkdown line ++ "<br>"

/-- Per-line outputs concatenated in file order, as the spec states the
renderer behaves. -/
def specRender : List String → String
  | [] => ""
  | line :: rest => specClassifyLine line ++ specRender rest

/-- The renderer's builder loop equals the per-line concatenation. -/
theorem loadBlogLoop_eq (lines : List String) :
    ∀ acc : String, loadBlogLoop lines acc = acc ++ specRender lines := by
  induction lines with
  | nil => intro acc; simp [loadBlogLoop, specRender, String.append_empty]
  | cons line rest ih =>
    intro acc
    simp only [loadBlogLoop, specRender, ih, specClassifyLine, String.append_assoc]

/-- Claim C3: the renderer processes the document's lines in file order
and concatenates per-line outputs, classifying each line in priority
order — h3, h2, h1, a single-item unordered list per "- " line
(consecutive "- " lines are not merged), else the transducer's output
followed by a line break. -/
theorem claim_C3 (fs : FileSys) (slug : String) (lines : List String)
    (h : fs slug = some lines) :
    loadBlogContent fs slug = Except.ok (specRender lines) := by
  simp [loadBlogContent, h, loadBlogLoop_eq, String.empty_append]

/-- Claim C3 witness: the renderer on a concrete four-line document with
a heading, two consecutive list lines and a blank line. -/
theorem claim_C3_witness :
    loadBlogContent (fun s => if s = "post" then some ["# Title", "- a", "- b", ""] else none)
      "post" = Except.ok (specRender ["# Title", "- a", "- b", ""]) :=
  claim_C3 (fun s => if s = "post" then some ["# Title", "- a", "- b", ""] else none)
    "post" ["# Title", "- a", "- b", ""] rfl

/-! ## Claims about the content cache -/

/-- Claim C4: once GetBlogContent has succeeded for a slug, a second call
for the same slug returns the byte-identical string from the cache and
leaves the state untouched — and it does so for an arbitrary (even
empty) filesystem, so it performs no file read and no re-render. -/
theorem claim_C4 (fs : FileSys) (l : LIGMA) (slug content : String) (l₂ : LIGMA)
    (h : GetBlogContent fs l slug = (Except.ok content, l₂)) :
    ∀ fs₂ : FileSys, GetBlogContent fs₂ l₂ slug = (Except.ok content, l₂) := by
  intro fs₂
  unfold GetBlogContent at h ⊢
  cases hl : l.Content.lookup slug with
  | some v =>
    rw [hl] at h
    simp only [Prod.mk.injEq, Except.ok.injEq] at h
    obtain ⟨hv, hl2⟩ := h
    subst hv; subst hl2
    rw [hl]
  | none =>
    rw [hl] at h
    cases hload : loadBlogContent fs slug with
    | error e => rw [hload] at h; simp at h
    | ok p =>
      rw [hload] at h
      simp only [Prod.mk.injEq, Except.ok.injEq] at h
      obtain ⟨hv, hl2⟩ := h
      subst hv; subst hl2
      simp [List.lookup]

/-- Claim C4 witness: render "post" from an empty cache, then serve the
second call from the cache against a filesystem with no files at all. -/
theorem claim_C4_witness :
    GetBlogContent (fun _ => none)
      { Content := [("post", "hi<br>")], Slugs := [] } "post"
      = (Except.ok "hi<br>", { Content := [("post", "hi<br>")], Slugs := [] }) :=
  claim_C4 (fun s => if s = "post" then some ["hi"] else none) NewLIGMA "post" "hi<br>"
    { Content := [("post", "hi<br>")], Slugs := [] } rfl (fun _ => none)

/-- Claim C5: when the slug is not cached and its render fails (the file
cannot be opened), GetBlogContent propagates the NotFound-class error and
leaves the state unchanged — no failure is cached — so a later call with
a filesystem that does have the file renders it instead of
short-circuiting to a cached failure. -/
theorem claim_C5 (fs : FileSys) (l : LIGMA) (slug : String)
    (hc : l.Content.lookup slug = none) (hf : fs slug = none) :
    GetBlogContent fs l slug = (Except.error GoError.notFound, l) ∧
    ∀ (fs₂ : FileSys) (lines : List String), fs₂ slug = some lines →
      GetBlogContent fs₂ l slug = (Except.ok (loadBlogLoop lines ""),
        { l with Content := (slug, loadBlogLoop lines "") :: l.Content }) := by
  constructor
  · simp [GetBlogContent, hc, loadBlogContent, hf]
  · intro fs₂ lines h2
    simp [GetBlogContent, hc, loadBlogContent, h2]

/-- Claim C5 witness: the missing slug "nope" errors and leaves the fresh
state unchanged, and a retry against a filesystem that has the file
renders it. -/
theorem claim_C5_witness :
    GetBlogContent (fun _ => none) NewLIGMA "nope" = (Except.error GoError.notFound, NewLIGMA) ∧
    ∀ (fs₂ : FileSys) (lines : List String), fs₂ "nope" = some lines →
      GetBlogContent fs₂ NewLIGMA "nope" = (Except.ok (loadBlogLoop lines ""),
        { NewLIGMA with Content := ("nope", loadBlogLoop lines "") :: NewLIGMA.Content }) :=
  claim_C5 (fun _ => none) NewLIGMA "nope" rfl rfl

/-! ## Claims about slug discovery -/

/-- Spec-side description of one walk: for each directory level, the
first component collects the .md file paths contributed by subdirectory
walks (in entry order, each subtree's complete output), the second this
directory's own .md file paths (in entry order); non-.md files contribute
nothing. -/
def mdWalk : String → FSList → List String × List String
  | _, .nil => ([], [])
  | d, .cons (.dir name entries) rest =>
    ((mdWalk (joinPath d name) entries).1 ++ (mdWalk (joinPath d name) entries).2
       ++ (mdWalk d rest).1, (mdWalk d rest).2)
  | d, .cons (.file name) rest =>
    ((mdWalk d rest).1,
     (if hasSuf name ".md" then [joinPath d name] else []) ++ (mdWalk d rest).2)

/-- Spec-side: the .md file paths of the tree in the exact order the walk
appends their slugs to the list. -/
def mdFilePaths (d : String) (es : FSList) : List String :=
  (mdWalk d es).1 ++ (mdWalk d es).2

/-- The walk loop, on any accumulators, produces exactly the slugs of the
tree's .md file paths appended to what was already there. -/
theorem buildWalk_spec :
    ∀ (d : String) (es : FSList) (md₀ slugs₀ : List String) (md' slugs' : List String),
      buildWalk d es md' slugs' =
        (md' ++ ((mdWalk d es).2).map slugOf, slugs' ++ ((mdWalk d es).1).map slugOf) := by
  intro d es md₀ slugs₀
  induction d, es, md₀, slugs₀ using buildWalk.induct with
  | case1 d md slugs => intro md' slugs'; simp [buildWalk, mdWalk]
  | case2 d name entries rest md slugs sub ihc ihr =>
    intro md' slugs'
    simp only [buildWalk, mdWalk]
    rw [ihc, ihr]
    simp [List.map_append, List.append_assoc]
  | case3 d name rest md slugs hmd ih =>
    intro md' slugs'
    simp only [buildWalk, mdWalk, if_pos hmd]
    rw [ih]
    simp [List.map_append, List.append_assoc]
  | case4 d name rest md slugs hmd ih =>
    intro md' slugs'
    simp only [buildWalk, mdWalk, if_neg hmd]
    rw [ih]
    simp

/-- A suffix of the file name is a suffix of the joined path. -/
theorem hasSuf_joinPath (d name suf : String) (h : hasSuf name suf = true) :
    hasSuf (joinPath d name) suf = true := by
  simp only [hasSuf, joinPath, List.isSuffixOf_iff_suffix, String.data_append] at h ⊢
  exact h.trans (List.suffix_append _ _)

/-- Every path mdWalk collects ends in ".md". -/
theorem mdWalk_md : ∀ (d : String) (es : FSList) (p : String),
    p ∈ (mdWalk d es).1 ++ (mdWalk d es).2 → hasSuf p ".md" = true := by
  intro d es
  induction d, es using mdWalk.induct with
  | case1 d => intro p hp; simp [mdWalk] at hp
  | case2 d name entries rest ihc ihr =>
    intro p hp
    simp only [mdWalk, List.mem_append] at hp
    rcases hp with ((h | h) | h) | h
    · exact ihc p (List.mem_append.mpr (Or.inl h))
    · exact ihc p (List.mem_append.mpr (Or.inr h))
    · exact ihr p (List.mem_append.mpr (Or.inl h))
    · exact ihr p (List.mem_append.mpr (Or.inr h))
  | case3 d name rest ihr =>
    intro p hp
    simp only [mdWalk, List.mem_append] at hp
    rcases hp with h | h | h
    · exact ihr p (List.mem_append.mpr (Or.inl h))
    · by_cases hmd : hasSuf name ".md" = true
      · simp only [if_pos hmd, List.mem_singleton] at h
        subst h; exact hasSuf_joinPath d name ".md" hmd
      · simp [if_neg hmd] at h
    · exact ihr p (List.mem_append.mpr (Or.inr h))

/-- Claim C6, counterexample: one walk over a root holding just "a.md"
discovers exactly ["a"], yet running discovery twice from a fresh LIGMA
leaves Slugs = ["a", "a"] — the list accumulates instead of being left
equal to the walk's fresh discoveries. -/
theorem claim_C6_counterexample :
    buildBlogListRecursive "content" (.cons (.file "a.md") .nil) [] = ["a"] ∧
    (buildBlogList (.cons (.file "a.md") .nil)
        (buildBlogList (.cons (.file "a.md") .nil) NewLIGMA)).Slugs = ["a", "a"] := by
  constructor
  · rfl
  · rfl

/-- Claim C6 as amended: every invocation of discovery performs a full
walk whose discoveries depend only on the tree, but it APPENDS them to
the existing Slugs list rather than leaving the list equal to the fresh
walk alone; only from an empty list does the field end up equal to the
fresh walk's slugs. -/
theorem claim_C6_amended (dirPath : String) (entries : FSList) (slugs : List String) :
    buildBlogListRecursive dirPath entries slugs =
      slugs ++ buildBlogListRecursive dirPath entries [] := by
  unfold buildBlogListRecursive
  rw [buildWalk_spec dirPath entries [] [] [] slugs, buildWalk_spec dirPath entries [] [] [] []]
  simp [List.append_assoc]

/-- Claim C7, counterexample: a nested directory itself named "content"
and a file named "b.md.md" produce the slugs "content/a" (which carries
the root-prefix segment) and "b.md" (which carries the ".md" extension). -/
theorem claim_C7_counterexample :
    buildBlogListRecursive "content"
        (.cons (.dir "content" (.cons (.file "a.md") .nil)) (.cons (.file "b.md.md") .nil)) []
      = ["content/a", "b.md"] ∧
    hasPre "content/a" "content/" = true ∧ hasSuf "b.md" ".md" = true := by
  refine ⟨rfl, rfl, rfl⟩

/-- Claim C7 as amended: a fresh walk returns exactly the slugs of the
tree's .md files (so non-Markdown files contribute no slug), in walk
order, each slug being the file's joined path — nesting preserved as
path segments — with one leading "content/" and one trailing ".md"
trimmed; every collected path really ends in ".md". The trimmed slug can
still start with "content/" or end with ".md" when a nested directory is
itself named "content" or a file name ends in a doubled ".md". -/
theorem claim_C7_amended (dirPath : String) (es : FSList) :
    buildBlogListRecursive dirPath es [] = (mdFilePaths dirPath es).map slugOf ∧
    ∀ p ∈ mdFilePaths dirPath es, hasSuf p ".md" = true := by
  constructor
  · unfold buildBlogListRecursive mdFilePaths
    rw [buildWalk_spec dirPath es [] [] [] []]
    simp [List.map_append]
  · exact mdWalk_md dirPath es
